import Mathlib

/-!
Verification of the build-orchestration core of compile_bitcoind_gui.py.
Each definition below is a shallow embedding of the correspondingly named
Python function; line numbers refer to src/compile_bitcoind_gui.py.
External effects (the filesystem, subprocess exit codes, dialog answers)
are passed in as explicit parameters.
-/

/-- Lowercasing of a tag as done by Python tag.lower() (ASCII letters). -/
def lowerChars (s : String) : List Char := s.toList.map Char.toLower

/-- Does the character list start with the release-candidate marker r c? -/
def startsWithRC (l : List Char) : Bool :=
  match l with
  | c1 :: c2 :: _ => (c1 == 'r') && (c2 == 'c')
  | _ => false

/-- Substring scan implementing the Python membership test of "rc" in a string. -/
def containsRC : List Char → Bool
  | [] => false
  | c :: rest => startsWithRC (c :: rest) || containsRC rest

/-- The release-candidate filter condition (lines 308 and 350): "rc" in tag.lower(). -/
def hasRC (tag : String) : Bool := containsRC (lowerChars tag)

/-- Numeric value of a digit run, as Python int() applied to a matched group. -/
def digitsToNat (ds : List Char) : Nat := ds.foldl (fun n c => 10 * n + (c.toNat - 48)) 0

/-- tag.lstrip of the character v (line 288): drop every leading v. -/
def strip_v (tag : String) : List Char := tag.toList.dropWhile (fun c => c == 'v')

/-- The anchored regex match of digits, a dot, digits (line 289); none exactly
when the pattern does not match at the start of the stripped tag. -/
def parseVersionCore (t : List Char) : Option (Nat × Nat) :=
  let d1 := t.takeWhile Char.isDigit
  if d1 = [] then none
  else
    match t.dropWhile Char.isDigit with
    | '.' :: r2 =>
      let d2 := r2.takeWhile Char.isDigit
      if d2 = [] then none else some (digitsToNat d1, digitsToNat d2)
    | _ => none

/-- parse_version (lines 285-290): the matched (major, minor) pair, or (0, 0)
when the pattern does not match. -/
def parse_version (tag : String) : Nat × Nat :=
  (parseVersionCore (strip_v tag)).getD (0, 0)

/-- use_cmake (lines 292-295): the parsed major version is at least 25. -/
def use_cmake (version : String) : Bool :=
  decide (25 ≤ (parse_version version).1)

/-- The grouping key of get_bitcoin_versions (lines 317-319). The Python code
renders the pair as the string "major.minor" and later recovers the pair with
int on the dot-split parts; that round trip is the identity, so the key is
modelled directly as the pair. -/
def bitcoin_group_key (tag : String) : Nat × Nat := parse_version tag

/-- The collection loop shared by get_bitcoin_versions (lines 304-312, fuel 20)
and get_electrs_versions (lines 346-354, fuel 3): skip tags containing the RC
marker, append the others, and break once fuel many tags are collected. -/
def takeNonRC (fuel : Nat) : List String → List String
  | [] => []
  | t :: rest =>
    match fuel with
    | 0 => []
    | Nat.succ k =>
      if hasRC t then takeNonRC (Nat.succ k) rest else t :: takeNonRC k rest

/-- Insertion of a tag into version_groups (lines 321-323): dict insertion
order for new keys, append at the end of an existing group. -/
def addTag (gs : List ((Nat × Nat) × List String)) (key : Nat × Nat) (tag : String) :
    List ((Nat × Nat) × List String) :=
  match gs with
  | [] => [(key, [tag])]
  | (k, g) :: rest =>
    if k = key then (k, g ++ [tag]) :: rest else (k, g) :: addTag rest key tag

/-- version_groups built over the collected tags (lines 315-323). -/
def buildGroups (tags : List String) : List ((Nat × Nat) × List String) :=
  tags.foldl (fun gs t => addTag gs (bitcoin_group_key t) t) []

/-- Python tuple comparison on the (major, minor) key. -/
def pairLt (a b : Nat × Nat) : Bool :=
  decide (a.1 < b.1) || (decide (a.1 = b.1) && decide (a.2 < b.2))

/-- Stable insertion into a descending-sorted list: the element is placed in
front of the first entry that is not strictly greater. -/
def insertByDesc {α : Type} (lt : α → α → Bool) (x : α) : List α → List α
  | [] => [x]
  | y :: ys => if lt x y then y :: insertByDesc lt x ys else x :: y :: ys

/-- Stable descending insertion sort; extensionally equal to the stable Python
sorted with reverse set, for the same key function. -/
def sortByDesc {α : Type} (lt : α → α → Bool) : List α → List α
  | [] => []
  | x :: xs => insertByDesc lt x (sortByDesc lt xs)

/-- Dict lookup of version_groups at a key. -/
def lookupGroup (k : Nat × Nat) : List ((Nat × Nat) × List String) → Option (List String)
  | [] => none
  | (k2, g) :: rest => if k2 = k then some g else lookupGroup k rest

/-- get_bitcoin_versions (lines 297-339) applied to an already-fetched list of
tag strings: collect up to 20 non-RC tags, group them by (major, minor), walk
the group keys in descending order, for each key sort the group by
parse_version descending (a stable sort) and keep its first element, stopping
after 5 results. -/
def get_bitcoin_versions (tags : List String) : List String :=
  let all_versions := takeNonRC 20 tags
  let version_groups := buildGroups all_versions
  let sorted_keys := sortByDesc pairLt (version_groups.map Prod.fst)
  let picked := sorted_keys.filterMap (fun k =>
    match lookupGroup k version_groups with
    | some g =>
      (sortByDesc (fun a b => pairLt (parse_version a) (parse_version b)) g).head?
    | none => none)
  picked.take 5

/-- get_electrs_versions (lines 341-360) applied to an already-fetched list of
tag strings: the first 3 non-RC tags in upstream order. -/
def get_electrs_versions (tags : List String) : List String :=
  takeNonRC 3 tags

/-- get_bitcoin_versions including its try/except wrapper (lines 298-339): a
network or parse failure (the none case) yields the empty list. -/
def get_bitcoin_versions_fetch : Option (List String) → List String
  | none => []
  | some tags => get_bitcoin_versions tags

/-- get_electrs_versions including its try/except wrapper (lines 343-360). -/
def get_electrs_versions_fetch : Option (List String) → List String
  | none => []
  | some tags => get_electrs_versions tags

/-- Split a character list at every dot, as Python split does. -/
def splitDots : List Char → List (List Char)
  | [] => [[]]
  | c :: rest =>
    match splitDots rest with
    | [] => [[c]]
    | h :: t => if c = '.' then [] :: h :: t else (c :: h) :: t

/-- Modelled from the spec: the three-component ordered key (major, minor,
patch) of a release tag, obtained by a tolerant parse in which missing or
non-numeric components default to 0 (spec section 3, ReleaseTag). The source
parse_version keeps only the first two components; this definition exists to
compare the source behaviour against the spec. -/
def parse_version_spec3 (tag : String) : Nat × Nat × Nat :=
  let comps := splitDots (strip_v tag)
  let num := fun (i : Nat) =>
    let ds := comps.getD i []
    if (!ds.isEmpty) && ds.all Char.isDigit then digitsToNat ds else 0
  (num 0, num 1, num 2)

/-- Lexicographic strict order on the spec's three-component key. -/
def lex3Lt (a b : Nat × Nat × Nat) : Bool :=
  decide (a.1 < b.1) ||
    (decide (a.1 = b.1) &&
      (decide (a.2.1 < b.2.1) || (decide (a.2.1 = b.2.1) && decide (a.2.2 < b.2.2))))

/-- verify_git_commit (lines 94-139). The two commits are the stripped stdout
of the two git invocations; a value of none models a non-zero exit or an
exception, each of which makes the function return False. -/
def verify_git_commit (headCommit tagCommit : Option String) : Bool :=
  match headCommit, tagCommit with
  | some c, some t => c == t
  | _, _ => false

/-- verify_source_integrity (lines 141-159): a positive verification returns
True directly; otherwise the askyesno answer (the user override) is returned. -/
def verify_source_integrity (headCommit tagCommit : Option String) (override : Bool) : Bool :=
  if verify_git_commit headCommit tagCommit then true else override

inductive GateOutcome
  | proceed
  | abortVerificationFailure
deriving DecidableEq

/-- The verification gate of compile_bitcoin_source (lines 796-799): when
verify_source_integrity is false the build raises and aborts. -/
def bitcoin_build_gate (headCommit tagCommit : Option String) (override : Bool) : GateOutcome :=
  if verify_source_integrity headCommit tagCommit override then GateOutcome.proceed
  else GateOutcome.abortVerificationFailure

inductive ElectrsPrebuild
  | abortToolchainMissing
  | proceedToBuild (rustcWarned : Bool)
deriving DecidableEq

/-- The toolchain probe of compile_electrs_source (lines 911-948), which runs
before any source checkout or build: a non-zero cargo probe raises and aborts;
otherwise the pipeline continues towards the build, with only a logged warning
when the rustc probe fails. -/
def electrs_toolchain_check (cargoReturncode rustcReturncode : Int) : ElectrsPrebuild :=
  if cargoReturncode ≠ 0 then ElectrsPrebuild.abortToolchainMissing
  else ElectrsPrebuild.proceedToBuild (decide (rustcReturncode ≠ 0))

/-- Characters of the path after the last slash. -/
def basenameAux : List Char → List Char → List Char
  | [], acc => acc.reverse
  | c :: rest, acc => if c = '/' then basenameAux rest [] else basenameAux rest (c :: acc)

/-- os.path.basename (line 749). -/
def basename (p : String) : String := String.mk (basenameAux p.toList [])

/-- os.path.join of the destination directory and a file name (line 749). -/
def path_join (d b : String) : String :=
  if b.startsWith "/" then b
  else if d = "" then b
  else if d.endsWith "/" then d ++ b
  else d ++ "/" ++ b

structure CopyResult where
  copied : List (String × Nat)
  missing : List String
  emptyWarning : Bool

/-- The per-candidate loop of copy_binaries (lines 746-758): an existing
candidate is copied to the destination and given mode 493 (octal 755, line
752) and recorded as copied; an absent candidate is recorded as missing and
skipped without raising. -/
def copyLoop (fileExists : String → Bool) (dest_dir : String) :
    List String → List (String × Nat) × List String
  | [] => ([], [])
  | b :: rest =>
    let r := copyLoop fileExists dest_dir rest
    if fileExists b then ((path_join dest_dir (basename b), 493) :: r.1, r.2)
    else (r.1, b :: r.2)

/-- copy_binaries (lines 739-763): a total function that never raises for an
individual missing file; the warning flag is set exactly when the copied list
came out empty (lines 760-761). -/
def copy_binaries (fileExists : String → Bool) (dest_dir : String)
    (binary_files : List String) : CopyResult :=
  let r := copyLoop fileExists dest_dir binary_files
  { copied := r.1, missing := r.2, emptyWarning := r.1.isEmpty }

inductive Arch
  | apple_silicon
  | intel
  | unknown
deriving DecidableEq

/-- get_optimization_flags (lines 162-219), with the flag strings already
joined by spaces as the Python code does, in dict insertion order. -/
def get_optimization_flags (arch : Arch) (use_aggressive : Bool) : List (String × String) :=
  match arch with
  | Arch.apple_silicon =>
    if use_aggressive then
      [("CFLAGS", "-mcpu=apple-m1 -O2 -fomit-frame-pointer -fno-common -O3 -flto -march=armv8.5-a+fp16+crypto+dotprod"),
       ("CXXFLAGS", "-mcpu=apple-m1 -O2 -fomit-frame-pointer -fno-common -O3 -flto -march=armv8.5-a+fp16+crypto+dotprod"),
       ("LDFLAGS", "-flto")]
    else
      [("CFLAGS", "-mcpu=apple-m1 -O2 -fomit-frame-pointer -fno-common"),
       ("CXXFLAGS", "-mcpu=apple-m1 -O2 -fomit-frame-pointer -fno-common"),
       ("LDFLAGS", "")]
  | Arch.intel =>
    if use_aggressive then
      [("CFLAGS", "-march=native -O2 -fomit-frame-pointer -fno-common -O3 -flto -mtune=native"),
       ("CXXFLAGS", "-march=native -O2 -fomit-frame-pointer -fno-common -O3 -flto -mtune=native"),
       ("LDFLAGS", "-flto")]
    else
      [("CFLAGS", "-march=native -O2 -fomit-frame-pointer -fno-common"),
       ("CXXFLAGS", "-march=native -O2 -fomit-frame-pointer -fno-common"),
       ("LDFLAGS", "")]
  | Arch.unknown =>
    [("CFLAGS", "-O2"), ("CXXFLAGS", "-O2"), ("LDFLAGS", "")]

/-- Dict read with a default. -/
def envGet (e : List (String × String)) (k dflt : String) : String :=
  match e with
  | [] => dflt
  | kv :: rest => if kv.1 = k then kv.2 else envGet rest k dflt

/-- Dict write: replace the binding in place, or append a new one. -/
def envSet (e : List (String × String)) (k v : String) : List (String × String) :=
  match e with
  | [] => [(k, v)]
  | kv :: rest => if kv.1 = k then (k, v) :: rest else kv :: envSet rest k v

/-- The duplicate-removal loop of setup_build_environment (lines 405-411):
keep the first occurrence of every nonempty entry, in input order. -/
def dedupAux : List String → List String → List String
  | [], _ => []
  | p :: rest, seen =>
    if p ≠ "" ∧ p ∉ seen then p :: dedupAux rest (p :: seen)
    else dedupAux rest seen

/-- The dedup applied to the assembled path components (lines 405-411). -/
def dedupPaths (paths : List String) : List String := dedupAux paths []

/-- Index of the first occurrence of an entry in a list. -/
def firstIdx (a : String) : List String → Nat
  | [] => 0
  | x :: rest => if x = a then 0 else firstIdx a rest + 1

/-- The colon join of the search-path entries (line 413). -/
def joinColon : List String → String
  | [] => ""
  | [p] => p
  | p :: q :: rest => p ++ ":" ++ joinColon (q :: rest)

/-- The candidate filters for toolchain directories (lines 388-390, 398-400):
a candidate survives when it is non-None, nonempty (Python truthiness) and an
existing directory. -/
def optExisting (isDir : String → Bool) (cands : List (Option String)) : List String :=
  cands.filterMap (fun c =>
    match c with
    | some p => if (p != "") && isDir p then some p else none
    | none => none)

/-- The first existing prefix among the LLVM candidates (lines 416-425). -/
def findFirstDir (isDir : String → Bool) : List (Option String) → Option String
  | [] => none
  | c :: rest =>
    match c with
    | some p => if (p != "") && isDir p then some p else findFirstDir isDir rest
    | none => findFirstDir isDir rest

/-- The host facts read by setup_build_environment: the ambient process
environment os.environ, the detected Homebrew prefix, the home directory used
by expanduser, the directory-existence predicate and the architecture. -/
structure BuildHost where
  ambient : List (String × String)
  brewPrefix : Option String
  home : String
  isDir : String → Bool
  arch : Arch

/-- path_components as assembled in setup_build_environment (lines 370-403). -/
def path_components (h : BuildHost) : List String :=
  (match h.brewPrefix with
   | some bp => [bp ++ "/bin"]
   | none => [])
  ++ ["/opt/homebrew/bin", "/usr/local/bin"]
  ++ optExisting h.isDir
       [some (h.home ++ "/.cargo/bin"), h.brewPrefix.map (fun bp => bp ++ "/bin")]
  ++ optExisting h.isDir
       [h.brewPrefix.map (fun bp => bp ++ "/opt/llvm/bin"),
        some "/opt/homebrew/opt/llvm/bin", some "/usr/local/opt/llvm/bin"]
  ++ [envGet h.ambient "PATH" ""]

/-- The LLVM library prefix selection (lines 416-425). -/
def llvm_lib_prefix (h : BuildHost) : Option String :=
  findFirstDir h.isDir
    [h.brewPrefix.map (fun bp => bp ++ "/opt/llvm"),
     some "/opt/homebrew/opt/llvm", some "/usr/local/opt/llvm"]

/-- setup_build_environment (lines 363-437). The first component is the
ambient process environment after the call: the Python body takes a copy of
os.environ (line 365) and every subsequent write targets only the copy, so
the ambient set is returned unchanged. The second component is the composed
environment that the function returns. -/
def setup_build_environment (h : BuildHost) (use_aggressive_opts : Bool) :
    List (String × String) × List (String × String) :=
  let env0 := h.ambient
  let env1 := envSet env0 "PATH" (joinColon (dedupPaths (path_components h)))
  let env2 :=
    match llvm_lib_prefix h with
    | some p =>
      envSet (envSet env1 "LIBCLANG_PATH" (p ++ "/lib")) "DYLD_LIBRARY_PATH" (p ++ "/lib")
    | none => env1
  let env3 := (get_optimization_flags h.arch use_aggressive_opts).foldl
    (fun e kv => if kv.2 ≠ "" then envSet e kv.1 kv.2 else e) env2
  (h.ambient, env3)

/-- A concrete host used to instantiate the environment frame theorem. -/
def hostC : BuildHost :=
  { ambient := [("HOME", "/Users/dev"), ("PATH", "/usr/bin:/bin")]
    brewPrefix := none
    home := "/Users/dev"
    isDir := fun _ => false
    arch := Arch.unknown }

/-! Theorems for the claims. -/

/-- C1 (evaluation at the failing input): the tags v0.21.0 and v0.21.1 land in
the same (major, minor) group (0, 21), and the spec key of v0.21.1 is
lexicographically greater, so the claim requires v0.21.1 to be the group's
representative; but get_bitcoin_versions returns v0.21.0, because the
in-group sort key parse_version drops the patch component and the stable sort
therefore keeps first-seen order, contradicting the code's own comment that
only the highest patch version is kept. -/
theorem get_bitcoin_versions_ignores_patch :
    get_bitcoin_versions ["v0.21.0", "v0.21.1"] = ["v0.21.0"]
      ∧ bitcoin_group_key "v0.21.0" = bitcoin_group_key "v0.21.1"
      ∧ lex3Lt (parse_version_spec3 "v0.21.0") (parse_version_spec3 "v0.21.1") = true
      ∧ "v0.21.1" ∉ get_bitcoin_versions ["v0.21.0", "v0.21.1"] := by
  decide

/-- C3 counterexample: with the cargo probe succeeding (exit code 0) and the
rustc probe failing (exit code 1), compile_electrs_source does not abort with
a toolchain-missing failure; it only records a warning and continues towards
the build. -/
theorem electrs_gate_rustc_failure_proceeds :
    electrs_toolchain_check 0 1 = ElectrsPrebuild.proceedToBuild true
      ∧ electrs_toolchain_check 0 1 ≠ ElectrsPrebuild.abortToolchainMissing := by
  decide

/-- C3 amended: before the release build is invoked, the package-manager
binary (cargo) is asserted resolvable in the composed environment and a
failing probe aborts the pipeline immediately with a toolchain-missing
failure without attempting the build; the compiler driver (rustc) is probed
too, but when cargo is resolvable a failing rustc probe only sets a warning
and the pipeline proceeds to the build. -/
theorem electrs_gate_aborts_iff_cargo_missing (cargoReturncode rustcReturncode : Int) :
    (electrs_toolchain_check cargoReturncode rustcReturncode
        = ElectrsPrebuild.abortToolchainMissing ↔ cargoReturncode ≠ 0)
      ∧ (electrs_toolchain_check cargoReturncode rustcReturncode
          = ElectrsPrebuild.proceedToBuild (decide (rustcReturncode ≠ 0))
            ↔ cargoReturncode = 0) := by
  by_cases hc : cargoReturncode = 0 <;> simp [electrs_toolchain_check, hc]

/-- C5: build-system selection for the node daemon is a pure function of the
parsed major version: use_cmake selects the CMake variant exactly when the
parsed major is at least 25 and the Autotools variant exactly when it is
below 25; in particular 25.0 and v25.1 select CMake while 24.2 selects
Autotools. -/
theorem use_cmake_spec :
    (∀ v : String,
        (use_cmake v = true ↔ 25 ≤ (parse_version v).1)
          ∧ (use_cmake v = false ↔ (parse_version v).1 < 25))
      ∧ use_cmake "25.0" = true ∧ use_cmake "v25.1" = true ∧ use_cmake "24.2" = false := by
  refine ⟨fun v => ⟨?_, ?_⟩, by decide, by decide, by decide⟩
  · simp [use_cmake]
  · simp [use_cmake, Nat.not_le]

/-- C9: a failed catalog fetch (any network or parse error, caught by the
try/except wrapper) yields the empty list instead of raising, for both the
node-daemon and the indexer listings. -/
theorem catalog_fetch_failure_empty :
    get_bitcoin_versions_fetch none = [] ∧ get_electrs_versions_fetch none = [] :=
  ⟨rfl, rfl⟩

/-- C10: when the version pattern does not match after stripping the leading v
characters, parse_version falls back to (0, 0); consequently such a tag is
grouped under the (0, 0) key in the catalog and always selects the Autotools
variant. -/
theorem unparsable_tag_defaults (tag : String)
    (h : (parseVersionCore (strip_v tag)).isSome = false) :
    parse_version tag = (0, 0) ∧ bitcoin_group_key tag = (0, 0) ∧ use_cmake tag = false := by
  have h0 : parseVersionCore (strip_v tag) = none := by
    cases hp : parseVersionCore (strip_v tag) with
    | none => rfl
    | some x => rw [hp] at h; simp at h
  refine ⟨?_, ?_, ?_⟩ <;> simp [parse_version, bitcoin_group_key, use_cmake, h0]

/-- C10 witness at the concrete tag nightly. -/
theorem unparsable_tag_defaults_witness :
    (parseVersionCore (strip_v "nightly")).isSome = false
      ∧ (parse_version "nightly" = (0, 0) ∧ bitcoin_group_key "nightly" = (0, 0)
          ∧ use_cmake "nightly" = false) :=
  ⟨by decide, unparsable_tag_defaults "nightly" (by decide)⟩

/-- C4: verify_git_commit is true exactly when both commits resolve and are
equal (so a mismatch or an unresolvable commit yields false);
verify_source_integrity is the verification result relaxed only by the
explicit user override; and the build gate proceeds exactly when one of the
two holds, aborting with a verification failure otherwise — never silently. -/
theorem verify_integrity_spec (headCommit tagCommit : Option String) (override : Bool) :
    (verify_git_commit headCommit tagCommit = true
        ↔ ∃ c, headCommit = some c ∧ tagCommit = some c)
      ∧ verify_source_integrity headCommit tagCommit override
          = (verify_git_commit headCommit tagCommit || override)
      ∧ (bitcoin_build_gate headCommit tagCommit override = GateOutcome.proceed
          ↔ (verify_git_commit headCommit tagCommit = true ∨ override = true)) := by
  refine ⟨?_, ?_, ?_⟩
  · cases headCommit with
    | none => simp [verify_git_commit]
    | some a =>
      cases tagCommit with
      | none => simp [verify_git_commit]
      | some b =>
        simp only [verify_git_commit, beq_iff_eq, Option.some_inj]
        constructor
        · intro h; exact ⟨a, rfl, h.symm⟩
        · rintro ⟨c, rfl, rfl⟩; rfl
  · cases hv : verify_git_commit headCommit tagCommit <;>
      simp [verify_source_integrity, hv]
  · cases hv : verify_git_commit headCommit tagCommit <;>
      cases override <;>
        simp [bitcoin_build_gate, verify_source_integrity, hv]

/-- The per-candidate loop of copy_binaries computes the filtered copy list
and the filtered missing list. -/
theorem copyLoop_eq (fileExists : String → Bool) (dest_dir : String) :
    ∀ l : List String,
      copyLoop fileExists dest_dir l
        = ((l.filter (fun b => fileExists b)).map
             (fun b => (path_join dest_dir (basename b), 493)),
           l.filter (fun b => !fileExists b))
  | [] => rfl
  | b :: rest => by
    have ih := copyLoop_eq fileExists dest_dir rest
    by_cases hb : fileExists b = true <;>
      simp [copyLoop, ih, List.filter_cons, hb]

/-- C2: copy_binaries copies exactly the existing candidates, in input order,
into the destination directory with the executable mode 493 (octal 755) and
records them as copied; it records exactly the absent candidates as missing;
it is a total function, so no exception escapes for an individual missing
file; and the empty-collection warning is flagged exactly when nothing was
copied. -/
theorem copy_binaries_spec (fileExists : String → Bool) (dest_dir : String)
    (binary_files : List String) :
    (copy_binaries fileExists dest_dir binary_files).copied
        = (binary_files.filter (fun b => fileExists b)).map
            (fun b => (path_join dest_dir (basename b), 493))
      ∧ (copy_binaries fileExists dest_dir binary_files).missing
          = binary_files.filter (fun b => !fileExists b)
      ∧ ((copy_binaries fileExists dest_dir binary_files).emptyWarning = true
          ↔ (copy_binaries fileExists dest_dir binary_files).copied = []) := by
  have h := copyLoop_eq fileExists dest_dir binary_files
  refine ⟨?_, ?_, ?_⟩ <;> simp [copy_binaries, h, List.isEmpty_iff]

/-- Membership in the dedup loop result: exactly the nonempty entries of the
input that are not already in the seen set. -/
theorem mem_dedupAux (x : String) :
    ∀ (l seen : List String), x ∈ dedupAux l seen ↔ (x ∈ l ∧ x ∉ seen ∧ x ≠ "")
  | [], seen => by simp [dedupAux]
  | p :: rest, seen => by
    by_cases hp : p ≠ "" ∧ p ∉ seen
    · simp only [dedupAux, if_pos hp]
      constructor
      · intro hx
        rcases List.mem_cons.mp hx with h | h
        · subst h
          exact ⟨List.mem_cons_self _ _, hp.2, hp.1⟩
        · have h2 := (mem_dedupAux x rest (p :: seen)).mp h
          refine ⟨List.mem_cons_of_mem _ h2.1, ?_, h2.2.2⟩
          intro hs
          exact h2.2.1 (List.mem_cons_of_mem _ hs)
      · rintro ⟨hxl, hxs, hxe⟩
        rcases List.mem_cons.mp hxl with h | h
        · subst h
          exact List.mem_cons_self _ _
        · by_cases hxp : x = p
          · subst hxp
            exact List.mem_cons_self _ _
          · refine List.mem_cons_of_mem _ ?_
            refine (mem_dedupAux x rest (p :: seen)).mpr ⟨h, ?_, hxe⟩
            intro hmem
            rcases List.mem_cons.mp hmem with h2 | h2
            · exact hxp h2
            · exact hxs h2
    · simp only [dedupAux, if_neg hp]
      rw [mem_dedupAux x rest seen]
      constructor
      · rintro ⟨h1, h2, h3⟩
        exact ⟨List.mem_cons_of_mem _ h1, h2, h3⟩
      · rintro ⟨h1, h2, h3⟩
        rcases List.mem_cons.mp h1 with h | h
        · subst h
          exact absurd ⟨h3, h2⟩ hp
        · exact ⟨h, h2, h3⟩

theorem firstIdx_cons_self (p : String) (rest : List String) :
    firstIdx p (p :: rest) = 0 := by
  simp [firstIdx]

theorem firstIdx_cons_ne (x p : String) (rest : List String) (h : ¬ p = x) :
    firstIdx x (p :: rest) = firstIdx x rest + 1 := by
  simp [firstIdx, h]

/-- The dedup loop result is ordered by first occurrence in the input. -/
theorem dedupAux_pairwise :
    ∀ (l seen : List String),
      (dedupAux l seen).Pairwise (fun a b => firstIdx a l < firstIdx b l)
  | [], _ => by simp [dedupAux]
  | p :: rest, seen => by
    by_cases hp : p ≠ "" ∧ p ∉ seen
    · simp only [dedupAux, if_pos hp]
      refine List.pairwise_cons.mpr ⟨?_, ?_⟩
      · intro b hb
        have hbmem := (mem_dedupAux b rest (p :: seen)).mp hb
        have hbp : ¬ p = b := by
          intro h
          subst h
          exact hbmem.2.1 (List.mem_cons_self _ _)
        rw [firstIdx_cons_self, firstIdx_cons_ne b p rest hbp]
        exact Nat.succ_pos _
      · refine List.Pairwise.imp_of_mem ?_ (dedupAux_pairwise rest (p :: seen))
        intro a b ha hb hab
        have hamem := (mem_dedupAux a rest (p :: seen)).mp ha
        have hbmem := (mem_dedupAux b rest (p :: seen)).mp hb
        have hap : ¬ p = a := by
          intro h
          subst h
          exact hamem.2.1 (List.mem_cons_self _ _)
        have hbp : ¬ p = b := by
          intro h
          subst h
          exact hbmem.2.1 (List.mem_cons_self _ _)
        rw [firstIdx_cons_ne a p rest hap, firstIdx_cons_ne b p rest hbp]
        exact Nat.succ_lt_succ hab
    · simp only [dedupAux, if_neg hp]
      refine List.Pairwise.imp_of_mem ?_ (dedupAux_pairwise rest seen)
      intro a b ha hb hab
      have hamem := (mem_dedupAux a rest seen).mp ha
      have hbmem := (mem_dedupAux b rest seen).mp hb
      have hap : ¬ p = a := by
        intro h
        subst h
        rcases not_and_or.mp hp with h1 | h1
        · exact hamem.2.2 (not_not.mp h1)
        · exact hamem.2.1 (not_not.mp h1)
      have hbp : ¬ p = b := by
        intro h
        subst h
        rcases not_and_or.mp hp with h1 | h1
        · exact hbmem.2.2 (not_not.mp h1)
        · exact hbmem.2.1 (not_not.mp h1)
      rw [firstIdx_cons_ne a p rest hap, firstIdx_cons_ne b p rest hbp]
      exact Nat.succ_lt_succ hab

theorem dedupAux_nodup (l seen : List String) : (dedupAux l seen).Nodup := by
  refine List.Pairwise.imp ?_ (dedupAux_pairwise l seen)
  intro a b hab heq
  rw [heq] at hab
  exact Nat.lt_irrefl _ hab

/-- The dedup loop is the identity on a duplicate-free list of nonempty
entries disjoint from the seen set. -/
theorem dedupAux_eq_self :
    ∀ (l seen : List String), l.Nodup → (∀ x ∈ l, x ≠ "") → (∀ x ∈ l, x ∉ seen) →
      dedupAux l seen = l
  | [], _, _, _, _ => rfl
  | p :: rest, seen, hnd, hne, hns => by
    have hp : p ≠ "" ∧ p ∉ seen :=
      ⟨hne p (List.mem_cons_self _ _), hns p (List.mem_cons_self _ _)⟩
    simp only [dedupAux, if_pos hp]
    have hnd2 := List.nodup_cons.mp hnd
    congr 1
    refine dedupAux_eq_self rest (p :: seen) hnd2.2 ?_ ?_
    · intro x hx
      exact hne x (List.mem_cons_of_mem _ hx)
    · intro x hx hmem
      rcases List.mem_cons.mp hmem with h | h
      · subst h
        exact hnd2.1 hx
      · exact hns x (List.mem_cons_of_mem _ hx) h

theorem envGet_envSet_self (k v dflt : String) :
    ∀ e : List (String × String), envGet (envSet e k v) k dflt = v
  | [] => by simp [envSet, envGet]
  | kv :: rest => by
    by_cases h : kv.1 = k <;>
      simp [envSet, envGet, h, envGet_envSet_self k v dflt rest]

theorem envGet_envSet_ne (k k2 v dflt : String) (h : ¬ k = k2) :
    ∀ e : List (String × String), envGet (envSet e k v) k2 dflt = envGet e k2 dflt
  | [] => by simp [envSet, envGet, h]
  | kv :: rest => by
    by_cases hk : kv.1 = k
    · have hk2 : ¬ kv.1 = k2 := by
        rw [hk]
        exact h
      simp [envSet, envGet, hk, hk2, h]
    · simp [envSet, envGet, hk, envGet_envSet_ne k k2 v dflt h rest]

theorem envGet_setFlags_ne (k dflt : String) :
    ∀ (flags : List (String × String)) (e : List (String × String)),
      (∀ kv ∈ flags, ¬ kv.1 = k) →
      envGet (flags.foldl (fun e kv => if kv.2 ≠ "" then envSet e kv.1 kv.2 else e) e) k dflt
        = envGet e k dflt
  | [], e, _ => rfl
  | kv :: fl, e, hkeys => by
    have h1 : ¬ kv.1 = k := hkeys kv (List.mem_cons_self _ _)
    have h2 : ∀ kv2 ∈ fl, ¬ kv2.1 = k := fun kv2 hm => hkeys kv2 (List.mem_cons_of_mem _ hm)
    rw [List.foldl_cons, envGet_setFlags_ne k dflt fl _ h2]
    by_cases hv : kv.2 ≠ ""
    · rw [if_pos hv, envGet_envSet_ne kv.1 k kv.2 dflt h1]
    · rw [if_neg hv]

/-- Every key written by the optimization flags is one of the three flag
variables. -/
theorem opt_flags_keys (arch : Arch) (agg : Bool) :
    ∀ kv ∈ get_optimization_flags arch agg,
      kv.1 = "CFLAGS" ∨ kv.1 = "CXXFLAGS" ∨ kv.1 = "LDFLAGS" := by
  cases arch <;> cases agg <;> decide

/-- The composed environment, written without the intermediate lets. -/
theorem setup_build_environment_unfold (h : BuildHost) (agg : Bool) :
    (setup_build_environment h agg).2
      = (get_optimization_flags h.arch agg).foldl
          (fun e kv => if kv.2 ≠ "" then envSet e kv.1 kv.2 else e)
          (match llvm_lib_prefix h with
           | some p =>
             envSet (envSet (envSet h.ambient "PATH"
                 (joinColon (dedupPaths (path_components h))))
               "LIBCLANG_PATH" (p ++ "/lib")) "DYLD_LIBRARY_PATH" (p ++ "/lib")
           | none =>
             envSet h.ambient "PATH" (joinColon (dedupPaths (path_components h)))) := rfl

/-- C6: setup_build_environment never writes into the ambient process
environment — the ambient variable set after the call is unchanged for every
architecture and optimization tier — and the environment it returns is a full
copy: it agrees with the ambient environment on every key other than the
search path, the two LLVM library variables and the three optimization-flag
variables that the composer sets. -/
theorem setup_build_environment_frame (h : BuildHost) (agg : Bool) :
    (setup_build_environment h agg).1 = h.ambient
      ∧ ∀ k : String,
          k ∉ ["PATH", "LIBCLANG_PATH", "DYLD_LIBRARY_PATH", "CFLAGS", "CXXFLAGS", "LDFLAGS"] →
          envGet (setup_build_environment h agg).2 k "" = envGet h.ambient k "" := by
  refine ⟨rfl, ?_⟩
  intro k hk
  simp only [List.mem_cons, List.not_mem_nil, or_false, not_or] at hk
  obtain ⟨h1, h2, h3, h4, h5, h6⟩ := hk
  have hflags : ∀ kv ∈ get_optimization_flags h.arch agg, ¬ kv.1 = k := by
    intro kv hkv
    rcases opt_flags_keys h.arch agg kv hkv with hke | hke | hke <;> rw [hke]
    · exact fun he => h4 he.symm
    · exact fun he => h5 he.symm
    · exact fun he => h6 he.symm
  rw [setup_build_environment_unfold, envGet_setFlags_ne k "" _ _ hflags]
  cases hl : llvm_lib_prefix h with
  | some p =>
    rw [envGet_envSet_ne _ _ _ _ (fun he => h3 he.symm),
      envGet_envSet_ne _ _ _ _ (fun he => h2 he.symm),
      envGet_envSet_ne _ _ _ _ (fun he => h1 he.symm)]
  | none =>
    rw [envGet_envSet_ne _ _ _ _ (fun he => h1 he.symm)]

/-- C6 witness at a concrete host: the unrelated HOME binding of the ambient
environment is untouched in the composed copy. -/
theorem setup_build_environment_frame_witness :
    "HOME" ∉ (["PATH", "LIBCLANG_PATH", "DYLD_LIBRARY_PATH",
        "CFLAGS", "CXXFLAGS", "LDFLAGS"] : List String)
      ∧ envGet (setup_build_environment hostC false).2 "HOME" ""
          = envGet hostC.ambient "HOME" "" :=
  ⟨by decide, (setup_build_environment_frame hostC false).2 "HOME" (by decide)⟩

/-- C7: the search-path composition de-duplicates while preserving first-seen
order and is idempotent: the spec's example holds; the result has no
duplicates; it contains exactly the nonempty input entries; its entries are
ordered by first occurrence in the input; re-deduplicating the result changes
nothing; and the search-path variable of the composed environment is exactly
the colon join of the de-duplicated components. -/
theorem dedup_paths_spec (xs : List String) :
    dedupPaths ["A", "B", "A", "C"] = ["A", "B", "C"]
      ∧ (dedupPaths xs).Nodup
      ∧ (∀ x, x ∈ dedupPaths xs ↔ (x ∈ xs ∧ x ≠ ""))
      ∧ (dedupPaths xs).Pairwise (fun a b => firstIdx a xs < firstIdx b xs)
      ∧ dedupPaths (dedupPaths xs) = dedupPaths xs
      ∧ ∀ (h : BuildHost) (agg : Bool),
          envGet (setup_build_environment h agg).2 "PATH" ""
            = joinColon (dedupPaths (path_components h)) := by
  refine ⟨by decide, dedupAux_nodup xs [], ?_, dedupAux_pairwise xs [], ?_, ?_⟩
  · intro x
    rw [dedupPaths, mem_dedupAux x xs []]
    simp
  · unfold dedupPaths
    apply dedupAux_eq_self
    · exact dedupAux_nodup xs []
    · intro x hx
      exact ((mem_dedupAux x xs []).mp hx).2.2
    · intro x hx
      exact List.not_mem_nil x
  · intro h agg
    have hflags : ∀ kv ∈ get_optimization_flags h.arch agg, ¬ kv.1 = "PATH" := by
      intro kv hkv
      rcases opt_flags_keys h.arch agg kv hkv with hke | hke | hke <;> rw [hke] <;> decide
    rw [setup_build_environment_unfold, envGet_setFlags_ne _ "" _ _ hflags]
    cases hl : llvm_lib_prefix h with
    | some p =>
      rw [envGet_envSet_ne _ _ _ _ (by decide), envGet_envSet_ne _ _ _ _ (by decide),
        envGet_envSet_self]
    | none =>
      rw [envGet_envSet_self]

theorem startsWithRC_iff (l : List Char) : startsWithRC l = true ↔ ['r', 'c'] <+: l := by
  match l with
  | [] =>
    simp [startsWithRC]
  | [c] =>
    simp [startsWithRC, List.cons_prefix_cons]
  | c1 :: c2 :: rest =>
    simp only [startsWithRC, Bool.and_eq_true, beq_iff_eq, List.cons_prefix_cons,
      List.nil_prefix, and_true]
    constructor
    · rintro ⟨hr, hc⟩
      exact ⟨hr.symm, hc.symm⟩
    · rintro ⟨hr, hc⟩
      exact ⟨hr.symm, hc.symm⟩

theorem containsRC_iff : ∀ l : List Char, containsRC l = true ↔ ['r', 'c'] <:+: l
  | [] => by
    simp only [containsRC, Bool.false_eq_true, false_iff]
    intro hinf
    have := List.eq_nil_of_infix_nil hinf
    simp at this
  | c :: rest => by
    rw [containsRC, Bool.or_eq_true, startsWithRC_iff, containsRC_iff rest]
    exact (List.infix_cons_iff).symm

/-- hasRC is exactly the case-insensitive substring test for the RC marker. -/
theorem hasRC_iff (tag : String) : hasRC tag = true ↔ ['r', 'c'] <:+: lowerChars tag :=
  containsRC_iff (lowerChars tag)

/-- Every element produced by the collection loop comes from the input and
passed the RC filter. -/
theorem mem_takeNonRC (t : String) :
    ∀ (l : List String) (fuel : Nat), t ∈ takeNonRC fuel l → t ∈ l ∧ hasRC t = false
  | [], fuel => by simp [takeNonRC]
  | x :: rest, 0 => by simp [takeNonRC]
  | x :: rest, Nat.succ k => by
    cases hx : hasRC x with
    | true =>
      simp only [takeNonRC, hx, if_true]
      intro hmem
      have h2 := mem_takeNonRC t rest (Nat.succ k) hmem
      exact ⟨List.mem_cons_of_mem _ h2.1, h2.2⟩
    | false =>
      simp only [takeNonRC, hx, Bool.false_eq_true, if_false]
      intro hmem
      rcases List.mem_cons.mp hmem with h1 | h1
      · subst h1
        exact ⟨List.mem_cons_self _ _, hx⟩
      · have h2 := mem_takeNonRC t rest k h1
        exact ⟨List.mem_cons_of_mem _ h2.1, h2.2⟩

/-- All tags stored across the groups. -/
def groupTags : List ((Nat × Nat) × List String) → List String
  | [] => []
  | e :: rest => e.2 ++ groupTags rest

theorem mem_groupTags_addTag (x : String) (k : Nat × Nat) (t : String) :
    ∀ gs, x ∈ groupTags (addTag gs k t) → x = t ∨ x ∈ groupTags gs
  | [] => by
    simp [addTag, groupTags]
  | (k2, g) :: rest => by
    by_cases hk : k2 = k
    · simp only [addTag, if_pos hk, groupTags]
      intro hmem
      rcases List.mem_append.mp hmem with h1 | h1
      · rcases List.mem_append.mp h1 with h2 | h2
        · exact Or.inr (List.mem_append.mpr (Or.inl h2))
        · simp at h2
          exact Or.inl h2
      · exact Or.inr (List.mem_append.mpr (Or.inr h1))
    · simp only [addTag, if_neg hk, groupTags]
      intro hmem
      rcases List.mem_append.mp hmem with h1 | h1
      · exact Or.inr (List.mem_append.mpr (Or.inl h1))
      · rcases mem_groupTags_addTag x k t rest h1 with h2 | h2
        · exact Or.inl h2
        · exact Or.inr (List.mem_append.mpr (Or.inr h2))

theorem mem_foldl_addTag (x : String) :
    ∀ (l : List String) (gs : List ((Nat × Nat) × List String)),
      x ∈ groupTags (l.foldl (fun gs t => addTag gs (bitcoin_group_key t) t) gs) →
      x ∈ groupTags gs ∨ x ∈ l
  | [], _ => fun hmem => Or.inl hmem
  | t :: rest, gs => by
    intro hmem
    rcases mem_foldl_addTag x rest (addTag gs (bitcoin_group_key t) t) hmem with h1 | h1
    · rcases mem_groupTags_addTag x (bitcoin_group_key t) t gs h1 with h2 | h2
      · refine Or.inr ?_
        rw [h2]
        exact List.mem_cons_self _ _
      · exact Or.inl h2
    · exact Or.inr (List.mem_cons_of_mem _ h1)

theorem lookupGroup_sub (x : String) (k : Nat × Nat) :
    ∀ (gs : List ((Nat × Nat) × List String)) (g : List String),
      lookupGroup k gs = some g → x ∈ g → x ∈ groupTags gs
  | [], g => by simp [lookupGroup]
  | (k2, g2) :: rest, g => by
    by_cases hk : k2 = k
    · simp only [lookupGroup, if_pos hk]
      intro heq hx
      obtain rfl : g2 = g := Option.some.inj heq
      exact List.mem_append.mpr (Or.inl hx)
    · simp only [lookupGroup, if_neg hk]
      intro heq hx
      exact List.mem_append.mpr (Or.inr (lookupGroup_sub x k rest g heq hx))

theorem mem_insertByDesc {α : Type} (lt : α → α → Bool) (x a : α) :
    ∀ l, x ∈ insertByDesc lt a l → x = a ∨ x ∈ l
  | [] => by simp [insertByDesc]
  | y :: ys => by
    cases hl : lt a y with
    | true =>
      simp only [insertByDesc, hl, if_true]
      intro hmem
      rcases List.mem_cons.mp hmem with h1 | h1
      · refine Or.inr ?_
        rw [h1]
        exact List.mem_cons_self _ _
      · rcases mem_insertByDesc lt x a ys h1 with h2 | h2
        · exact Or.inl h2
        · exact Or.inr (List.mem_cons_of_mem _ h2)
    | false =>
      simp only [insertByDesc, hl, Bool.false_eq_true, if_false]
      intro hmem
      rcases List.mem_cons.mp hmem with h1 | h1
      · exact Or.inl h1
      · exact Or.inr h1

theorem mem_sortByDesc {α : Type} (lt : α → α → Bool) (x : α) :
    ∀ l, x ∈ sortByDesc lt l → x ∈ l
  | [] => by simp [sortByDesc]
  | y :: ys => by
    intro hmem
    rcases mem_insertByDesc lt x y (sortByDesc lt ys) hmem with h1 | h1
    · rw [h1]
      exact List.mem_cons_self _ _
    · exact List.mem_cons_of_mem _ (mem_sortByDesc lt x ys h1)

theorem mem_of_head_eq {α : Type} {l : List α} {x : α} (hd : l.head? = some x) : x ∈ l := by
  cases l with
  | nil => simp at hd
  | cons a t =>
    simp only [List.head?] at hd
    obtain rfl : a = x := Option.some.inj hd
    exact List.mem_cons_self _ _

theorem mem_take_sub {α : Type} (x : α) :
    ∀ (n : Nat) (l : List α), x ∈ l.take n → x ∈ l
  | 0, l => by simp
  | Nat.succ k, [] => by simp
  | Nat.succ k, a :: rest => by
    intro hmem
    rcases List.mem_cons.mp hmem with h1 | h1
    · rw [h1]
      exact List.mem_cons_self _ _
    · exact List.mem_cons_of_mem _ (mem_take_sub x k rest h1)

/-- Every tag in the node-daemon catalog result passed the RC filter. -/
theorem bitcoin_result_no_rc (tags : List String) (t : String)
    (hmem : t ∈ get_bitcoin_versions tags) : hasRC t = false := by
  simp only [get_bitcoin_versions] at hmem
  have h1 := mem_take_sub t 5 _ hmem
  rw [List.mem_filterMap] at h1
  obtain ⟨k, _, hfk⟩ := h1
  cases hlk : lookupGroup k (buildGroups (takeNonRC 20 tags)) with
  | none =>
    rw [hlk] at hfk
    simp at hfk
  | some g =>
    rw [hlk] at hfk
    have h3 := mem_sortByDesc _ t g (mem_of_head_eq hfk)
    have h4 := lookupGroup_sub t k _ g hlk h3
    rcases mem_foldl_addTag t (takeNonRC 20 tags) [] h4 with h5 | h5
    · simp [groupTags] at h5
    · exact (mem_takeNonRC t tags 20 h5).2

/-- C8: a release tag containing the release-candidate marker as a substring
of its lowercasing — any letter case, any position — is excluded from the
result of both the node-daemon and the indexer version listings. -/
theorem rc_tags_excluded (tags : List String) (t : String)
    (hrc : ['r', 'c'] <:+: lowerChars t) :
    t ∉ get_bitcoin_versions tags ∧ t ∉ get_electrs_versions tags := by
  have ht : hasRC t = true := (hasRC_iff t).mpr hrc
  constructor
  · intro hmem
    rw [bitcoin_result_no_rc tags t hmem] at ht
    exact Bool.false_ne_true ht
  · intro hmem
    rw [(mem_takeNonRC t tags 3 hmem).2] at ht
    exact Bool.false_ne_true ht

/-- C8 witness at a concrete RC tag and input listing. -/
theorem rc_tags_excluded_witness :
    (['r', 'c'] <:+: lowerChars "v30.0rc1")
      ∧ ("v30.0rc1" ∉ get_bitcoin_versions ["v30.0rc1", "v29.1"]
          ∧ "v30.0rc1" ∉ get_electrs_versions ["v30.0rc1", "v29.1"]) :=
  ⟨(hasRC_iff "v30.0rc1").mp (by decide),
   rc_tags_excluded ["v30.0rc1", "v29.1"] "v30.0rc1" ((hasRC_iff "v30.0rc1").mp (by decide))⟩
